import Mathlib

/-!
Verification of the portfolio-balancer core (etf_dashboard.py, utils.py).

The Python code is shallowly embedded: numeric values are modelled as `ℚ`
(the code manipulates Python ints and floats; we use exact rationals, the
standard idealisation), Python's `int()` truncation as `pytrunc`, fallible
code as `Except PyErr`, and the SQLite valuation table as an association
list keyed by its primary key.
-/

/-- A holding record, as handled by `calculate_rebalancing` (etf dicts with
keys name, code, current_price, current_qty, target_ratio). -/
structure Holding where
  name : String
  code : String
  current_price : ℚ
  current_qty : ℚ
  target_ratio : ℚ
deriving Repr, DecidableEq

/-- The one runtime error the embedded code can raise: Python's
ZeroDivisionError. -/
inductive PyErr where
  | divByZero
deriving Repr, DecidableEq

/-- Python `int()` applied to a number: truncation toward zero. -/
def pytrunc (q : ℚ) : ℤ := if 0 ≤ q then ⌊q⌋ else ⌈q⌉

/-- One element of the `etf_values` list built in the first loop of
`calculate_rebalancing` (lines 258-270). -/
structure EtfVal where
  etf : Holding
  current_value : ℚ
  current_ratio : ℚ
  target_value : ℚ
  target_ratio : ℚ
  value_difference : ℚ
deriving Repr, DecidableEq

/-- The dict appended to `etf_values` for one holding (lines 260-270):
`current_value = int(price) * int(qty)` (note the truncations),
`current_ratio = current_value / total_investment`,
`target_value = total_investment * target_ratio`,
`value_difference = target_value - current_value`. -/
def etfValueOf (total_investment : ℚ) (etf : Holding) : EtfVal :=
  let current_value : ℚ := ((pytrunc etf.current_price * pytrunc etf.current_qty : ℤ) : ℚ)
  { etf := etf
    current_value := current_value
    current_ratio := current_value / total_investment
    target_value := total_investment * etf.target_ratio
    target_ratio := etf.target_ratio
    value_difference := total_investment * etf.target_ratio - current_value }

/-- The first loop of `calculate_rebalancing` (lines 258-270).  When
`total_investment == 0` the division at line 261 raises ZeroDivisionError
for the first holding; with no holdings the loop body never runs. -/
def computeEtfValues (total_investment : ℚ) : List Holding → Except PyErr (List EtfVal)
  | [] => .ok []
  | etf :: rest =>
    if total_investment = 0 then .error .divByZero
    else
      match computeEtfValues total_investment rest with
      | .error e => .error e
      | .ok vals => .ok (etfValueOf total_investment etf :: vals)

/-- The error-free content of the first loop: one `EtfVal` per holding, in
input order. -/
def etfValuesPure (total_investment : ℚ) (etfs : List Holding) : List EtfVal :=
  etfs.map (etfValueOf total_investment)

/-- Line 272: `sorted(etf_values, key=lambda x: abs(x['value_difference']),
reverse=True)`.  Python's `sorted` is a stable sort; with `reverse=True` it
places `a` before `b` exactly when `|vd a| ≥ |vd b|`, keeping the input
order of ties.  `List.mergeSort` with the relation "`a` may precede `b`"
is precisely that stable descending sort. -/
def sortVals (vals : List EtfVal) : List EtfVal :=
  vals.mergeSort (fun a b => decide (|b.value_difference| ≤ |a.value_difference|))

/-- Line 281: the trade value, capped by `remaining_deposit` in either
direction. -/
def tradeValue (remaining value_difference : ℚ) : ℚ :=
  if |value_difference| ≤ remaining then value_difference
  else if 0 < value_difference then remaining else -remaining

/-- Line 283: `qty_to_trade = int(trade_value / etf['current_price'])`. -/
def qtyToTrade (trade_value price : ℚ) : ℤ := pytrunc (trade_value / price)

/-- One row of `rebalancing_results` (lines 287-296). -/
structure PlanEntry where
  name : String
  current_price : ℚ
  current_qty : ℚ
  current_value : ℚ
  current_ratio : ℚ
  target_ratio : ℚ
  qty_to_trade : ℤ
  trade_type : String
deriving Repr, DecidableEq

/-- One row of `portfolio_update_info` (lines 299-307). -/
structure UpdateEntry where
  name : String
  code : String
  current_price : ℚ
  current_qty : ℚ
  current_value : ℚ
  current_ratio : ℚ
  target_ratio : ℚ
deriving Repr, DecidableEq

/-- The `result` dict built at lines 287-296, including the trade direction
of line 295 (매수 = buy, 매도 = sell, 유지 = hold). -/
def planEntryOf (item : EtfVal) (qty : ℤ) : PlanEntry :=
  { name := item.etf.name
    current_price := item.etf.current_price
    current_qty := item.etf.current_qty
    current_value := item.current_value
    current_ratio := item.current_ratio
    target_ratio := item.target_ratio
    qty_to_trade := qty
    trade_type := if 0 < qty then "매수" else if qty < 0 then "매도" else "유지" }

/-- The dict appended to `portfolio_update_info` at lines 299-307: same
holding, with `current_qty` advanced by `qty_to_trade`. -/
def updateEntryOf (item : EtfVal) (qty : ℤ) : UpdateEntry :=
  { name := item.etf.name
    code := item.etf.code
    current_price := item.etf.current_price
    current_qty := item.etf.current_qty + (qty : ℚ)
    current_value := item.current_value
    current_ratio := item.current_ratio
    target_ratio := item.target_ratio }

/-- The greedy walk (lines 274-308): lines 277-307, threading
`remaining_deposit`.  Division by a zero `current_price` at line 283
raises ZeroDivisionError. -/
def walk (remaining : ℚ) : List EtfVal → Except PyErr (List PlanEntry × List UpdateEntry × ℚ)
  | [] => .ok ([], [], remaining)
  | item :: rest =>
    if item.etf.current_price = 0 then .error .divByZero
    else
      let qty := qtyToTrade (tradeValue remaining item.value_difference) item.etf.current_price
      let remaining' := remaining - |(qty : ℚ) * item.etf.current_price|
      match walk remaining' rest with
      | .error e => .error e
      | .ok (ps, us, rf) => .ok (planEntryOf item qty :: ps, updateEntryOf item qty :: us, rf)

/-- Line 255 / line 310: `sum(price * qty)` over the input holdings.  The
holdings fields are numeric here, for which `convert_to_number` at line 255
is the identity (its first branch returns numeric input unchanged), so
lines 255 and 310 compute this same sum. -/
def totalPV (etfs : List Holding) : ℚ :=
  (etfs.map (fun e => e.current_price * e.current_qty)).sum

/-- `calculate_rebalancing(etfs, total_deposit)` (lines 253-310): returns
`(rebalancing_results, sum(price*qty), portfolio_update_info)`. -/
def calculate_rebalancing (etfs : List Holding) (total_deposit : ℚ) :
    Except PyErr (List PlanEntry × ℚ × List UpdateEntry) :=
  let total_portfolio_value := totalPV etfs
  match computeEtfValues (total_portfolio_value + total_deposit) etfs with
  | .error e => .error e
  | .ok etf_values =>
    match walk total_deposit (sortVals etf_values) with
    | .error e => .error e
    | .ok (plan, upd, _) => .ok (plan, total_portfolio_value, upd)

/-- The "YYYY-MM" label produced by `get_month_format` (utils.py): the year
in decimal followed by the month zero-padded to two digits.  Both branches
of the source produce this shape (`strftime("%Y-%m")` and
`f"{next_year}-{next_month:02d}"` agree for four-digit years). -/
def monthLabel (year month : ℕ) : String :=
  toString year ++ "-" ++ (if month < 10 then "0" ++ toString month else toString month)

/-- `get_month_format()` (utils.py lines 3-19), with the current date passed
explicitly instead of read from the wall clock: on day ≥ 25 the bucket
rolls to the next month, December wrapping to January of the next year;
otherwise it is the current year-month. -/
def get_month_format (year month day : ℕ) : String :=
  if 25 ≤ day then
    let next_month := month + 1
    if 12 < next_month then monthLabel (year + 1) 1 else monthLabel year next_month
  else monthLabel year month

/-- The three sleeves `save_portfolio_history` dispatches on (lines
175-179: 개인연금, 퇴직연금, 코인 mapped to their table names). -/
inductive Sleeve where
  | personal_pension
  | retirement_pension
  | cryptocurrency
deriving Repr, DecidableEq

/-- A valuation-history table: rows `(date, total_value)` with `date` the
PRIMARY KEY (lines 143-164). -/
abbrev HistoryTable := List (String × ℚ)

/-- The SQL of lines 181-186: `INSERT INTO t (date, total_value) VALUES
(?, ?) ON CONFLICT(date) DO UPDATE SET total_value = excluded.total_value`.
If a row with the key exists its `total_value` is updated in place,
otherwise the new row is appended. -/
def upsertRow (t : HistoryTable) (date : String) (total_value : ℚ) : HistoryTable :=
  if t.any (fun r => r.1 = date) then
    t.map (fun r => if r.1 = date then (r.1, total_value) else r)
  else t ++ [(date, total_value)]

/-- `PortfolioDashboard.save_portfolio_history` (lines 169-190), with the
database as explicit state (one table per sleeve) and the period key
passed explicitly (the source computes it as `get_month_format()`). -/
def save_portfolio_history (db : Sleeve → HistoryTable) (sleeve : Sleeve)
    (date : String) (total_value : ℚ) : Sleeve → HistoryTable :=
  fun s => if s = sleeve then upsertRow (db sleeve) date total_value else db s

/-- A Python value as discriminated by `convert_to_number`'s `isinstance`
checks: an int, a float (modelled exactly as a rational), a string, or any
other type. -/
inductive PyValue where
  | pyInt (n : ℤ)
  | pyFloat (q : ℚ)
  | pyStr (s : String)
  | pyOther
deriving Repr, DecidableEq

/-- A Python number: the result type of a successful parse. -/
inductive PyNumber where
  | int (n : ℤ)
  | float (q : ℚ)
deriving Repr, DecidableEq

/-- Digit run to its value. -/
def digitsVal (cs : List Char) : ℕ :=
  cs.foldl (fun a c => a * 10 + (c.toNat - 48)) 0

/-- Python `int(s)` on an already-stripped string: an optional sign followed
by a nonempty run of digits.  (Underscore separators and non-ASCII digits,
which CPython also accepts, are outside the inputs this program handles and
are not modelled.) -/
def pyParseInt : List Char → Option ℤ
  | '+' :: rest => if !rest.isEmpty && rest.all Char.isDigit then some ((digitsVal rest : ℤ)) else none
  | '-' :: rest => if !rest.isEmpty && rest.all Char.isDigit then some (-(digitsVal rest : ℤ)) else none
  | cs => if !cs.isEmpty && cs.all Char.isDigit then some ((digitsVal cs : ℤ)) else none

/-- An unsigned float mantissa: `digits`, `digits.digits`, `digits.` or
`.digits`. -/
def parseUnsignedMantissa (cs : List Char) : Option ℚ :=
  match cs.span Char.isDigit with
  | (ip, rest) =>
    match rest with
    | [] => if ip.isEmpty then none else some ((digitsVal ip : ℚ))
    | '.' :: fp =>
      if fp.all Char.isDigit && (!ip.isEmpty || !fp.isEmpty) then
        some ((digitsVal ip : ℚ) + (digitsVal fp : ℚ) / (10 : ℚ) ^ fp.length)
      else none
    | _ => none

/-- Optionally signed nonempty digit run (a float exponent). -/
def parseSignedDigits (cs : List Char) : Option ℤ :=
  match cs with
  | '+' :: rest => if !rest.isEmpty && rest.all Char.isDigit then some ((digitsVal rest : ℤ)) else none
  | '-' :: rest => if !rest.isEmpty && rest.all Char.isDigit then some (-(digitsVal rest : ℤ)) else none
  | _ => if !cs.isEmpty && cs.all Char.isDigit then some ((digitsVal cs : ℤ)) else none

/-- Split a character list at the first `e`/`E`, if any. -/
def splitAtExp (cs : List Char) : List Char × Option (List Char) :=
  match cs.span (fun c => c ≠ 'e' && c ≠ 'E') with
  | (m, []) => (m, none)
  | (m, _ :: ecs) => (m, some ecs)

/-- The body of a float literal after its optional sign: decimal mantissa,
optional `e`/`E` exponent. -/
def pyParseFloatBody (sgn : ℚ) (body : List Char) : Option ℚ :=
  match splitAtExp body with
  | (mant, expPart) =>
    match parseUnsignedMantissa mant with
    | none => none
    | some m =>
      match expPart with
      | none => some (sgn * m)
      | some ecs =>
        match parseSignedDigits ecs with
        | none => none
        | some e => some (sgn * m * (10 : ℚ) ^ e)

/-- Python `float(s)` on an already-stripped string: optional sign, decimal
mantissa, optional `e`/`E` exponent.  (`inf`/`nan` literals have no exact
rational value and are not modelled; this program never feeds them in.) -/
def pyParseFloat : List Char → Option ℚ
  | '+' :: rest => pyParseFloatBody 1 rest
  | '-' :: rest => pyParseFloatBody (-1) rest
  | cs => pyParseFloatBody 1 cs

/-- Python `str.strip()`: drop whitespace from both ends. -/
def pyStrip (cs : List Char) : List Char :=
  ((cs.dropWhile Char.isWhitespace).reverse.dropWhile Char.isWhitespace).reverse

/-- `convert_to_number` (lines 205-227): numeric input is returned
unchanged; a string is cleaned as
`input.replace(',', '').replace('₩', '').strip()` — deleting every
occurrence of a single-character substring is exactly a character filter —
then parsed as int, falling back to float; any other type or an unparsable
string gives `None`. -/
def convert_to_number : PyValue → Option PyNumber
  | .pyInt n => some (.int n)
  | .pyFloat q => some (.float q)
  | .pyStr s =>
    let cleaned := pyStrip (s.toList.filter (fun c => !(c = ',' || c = '₩')))
    match pyParseInt cleaned with
    | some n => some (.int n)
    | none =>
      match pyParseFloat cleaned with
      | some q => some (.float q)
      | none => none
  | .pyOther => none

/-- How one walked item relates to the plan row and update row it emits:
both are built from the same `qty_to_trade`. -/
def WalkRel (item : EtfVal) (pu : PlanEntry × UpdateEntry) : Prop :=
  ∃ q : ℤ, pu.1 = planEntryOf item q ∧ pu.2 = updateEntryOf item q

/-- The value of `remaining_deposit` after the first `k` steps of the walk,
reconstructed from the emitted plan: the initial deposit minus the
`abs(qty_to_trade * current_price)` spent at each processed row
(line 285). -/
def remainAfter (d : ℚ) (plan : List PlanEntry) (k : ℕ) : ℚ :=
  d - ((plan.take k).map (fun e => |(e.qty_to_trade : ℚ) * e.current_price|)).sum

/-- The deficit a plan row stands for, reconstructed from its fields:
`target_value − current_value` where `target_value = basis · target_ratio`
(the row itself carries `target_ratio` and `current_value`). -/
def planDeficit (total_investment : ℚ) (p : PlanEntry) : ℚ :=
  total_investment * p.target_ratio - p.current_value

/-! ## Concrete demonstration data -/

/-- A one-holding portfolio (price 100, quantity 10, target weight 1). -/
def demoH : Holding := ⟨"A", "A1", 100, 10, 1⟩

/-- The plan produced for `[demoH]` with deposit 1000. -/
def demoPlan : List PlanEntry := [⟨"A", 100, 10, 1000, 1/2, 1, 10, "매수"⟩]

/-- The holdings update produced for `[demoH]` with deposit 1000. -/
def demoUpd : List UpdateEntry := [⟨"A", "A1", 100, 20, 1000, 1/2, 1⟩]

/-- The two-holding example of the specification: values 500000/200000,
equal deficit magnitudes 150000, zero cash. -/
def demoP : Holding := ⟨"P", "P1", 50000, 10, 1/2⟩

/-- Second holding of the two-holding example. -/
def demoQ : Holding := ⟨"Q", "Q1", 100000, 2, 1/2⟩

/-- The plan produced for `[demoP, demoQ]` with deposit 0: the tie keeps
the input order and zero cash forces HOLD on both rows. -/
def demoPlanPQ : List PlanEntry :=
  [⟨"P", 50000, 10, 500000, 5/7, 1/2, 0, "유지"⟩,
   ⟨"Q", 100000, 2, 200000, 2/7, 1/2, 0, "유지"⟩]

/-- The holdings update produced for `[demoP, demoQ]` with deposit 0. -/
def demoUpdPQ : List UpdateEntry :=
  [⟨"P", "P1", 50000, 10, 500000, 5/7, 1/2⟩,
   ⟨"Q", "Q1", 100000, 2, 200000, 2/7, 1/2⟩]

/-- A holding with zero quantity (zero portfolio value). -/
def demoZeroQty : Holding := ⟨"Z", "Z1", 100, 0, 1⟩

/-- A holding with zero price. -/
def demoZeroPrice : Holding := ⟨"Z", "Z2", 0, 1, 1⟩

/-- The crypto seed holding of the dashboard (Bitcoin, fractional
quantity 0.1). -/
def btcHolding : Holding := ⟨"Bitcoin", "BTC", 60000000, 1/10, 1/2⟩

/-! ## Helper lemmas -/

theorem pytrunc_zero : pytrunc 0 = 0 := by
  simp [pytrunc]

/-- Truncation toward zero never increases the magnitude. -/
theorem abs_pytrunc_le (q : ℚ) : |(pytrunc q : ℚ)| ≤ |q| := by
  unfold pytrunc
  by_cases h : 0 ≤ q
  · rw [if_pos h]
    have h0 : (0 : ℚ) ≤ (⌊q⌋ : ℚ) := by
      exact_mod_cast (Int.floor_nonneg).mpr h
    rw [abs_of_nonneg h0, abs_of_nonneg h]
    exact Int.floor_le q
  · rw [if_neg h]
    push_neg at h
    have hq : q ≤ 0 := le_of_lt h
    have h0 : (⌈q⌉ : ℚ) ≤ 0 := by
      exact_mod_cast Int.ceil_le.mpr (by exact_mod_cast hq)
    rw [abs_of_nonpos h0, abs_of_nonpos hq]
    simp only [neg_le_neg_iff]
    exact Int.le_ceil q

/-- The capped trade value never exceeds the remaining budget in magnitude
(when the budget is nonnegative). -/
theorem abs_tradeValue_le {r : ℚ} (hr : 0 ≤ r) (vd : ℚ) : |tradeValue r vd| ≤ r := by
  unfold tradeValue
  by_cases h1 : |vd| ≤ r
  · rw [if_pos h1]; exact h1
  · rw [if_neg h1]
    by_cases h2 : 0 < vd
    · rw [if_pos h2, abs_of_nonneg hr]
    · rw [if_neg h2, abs_neg, abs_of_nonneg hr]

/-- The cash actually spent on a trade, `|qty_to_trade * price|`, never
exceeds the magnitude of the trade value it was derived from. -/
theorem abs_qty_mul_le {p : ℚ} (hp : p ≠ 0) (tv : ℚ) :
    |(qtyToTrade tv p : ℚ) * p| ≤ |tv| := by
  unfold qtyToTrade
  rw [abs_mul]
  have h1 : |(pytrunc (tv / p) : ℚ)| ≤ |tv / p| := abs_pytrunc_le _
  have hps : 0 < |p| := abs_pos.mpr hp
  calc |(pytrunc (tv / p) : ℚ)| * |p| ≤ |tv / p| * |p| := by
        exact mul_le_mul_of_nonneg_right h1 (le_of_lt hps)
    _ = |tv| := by rw [abs_div, div_mul_cancel₀ _ (ne_of_gt hps)]

/-- With no remaining budget the trade value is zero. -/
theorem tradeValue_zero (vd : ℚ) : tradeValue 0 vd = 0 := by
  unfold tradeValue
  by_cases h1 : |vd| ≤ 0
  · rw [if_pos h1]
    exact abs_nonpos_iff.mp h1
  · rw [if_neg h1]
    by_cases h2 : 0 < vd
    · rw [if_pos h2]
    · rw [if_neg h2, neg_zero]

/-- A successful first loop yields exactly the pure per-holding values. -/
theorem computeEtfValues_ok {ti : ℚ} :
    ∀ {etfs : List Holding} {vals : List EtfVal},
      computeEtfValues ti etfs = .ok vals → vals = etfValuesPure ti etfs := by
  intro etfs
  induction etfs with
  | nil => intro vals h; simp only [computeEtfValues] at h; cases h; rfl
  | cons etf rest ih =>
    intro vals h
    simp only [computeEtfValues] at h
    by_cases hz : ti = 0
    · rw [if_pos hz] at h; cases h
    · rw [if_neg hz] at h
      cases hr : computeEtfValues ti rest with
      | error e => rw [hr] at h; cases h
      | ok vs =>
        rw [hr] at h
        cases h
        simp [etfValuesPure, ih hr]

/-- With a nonzero investable basis the first loop succeeds. -/
theorem computeEtfValues_of_ne_zero {ti : ℚ} (h : ti ≠ 0) (etfs : List Holding) :
    computeEtfValues ti etfs = .ok (etfValuesPure ti etfs) := by
  induction etfs with
  | nil => rfl
  | cons etf rest ih => simp [computeEtfValues, if_neg h, ih, etfValuesPure]

/-- With a zero basis and at least one holding the first loop raises
division by zero at the ratio computation. -/
theorem computeEtfValues_zero {etf : Holding} {rest : List Holding} :
    computeEtfValues 0 (etf :: rest) = .error .divByZero := by
  simp [computeEtfValues]

/-- Shape of a successful walk: one plan row and one update row per walked
item, in walk order, each pair generated from its item. -/
theorem walk_ok_shape :
    ∀ {items : List EtfVal} {r : ℚ} {plan : List PlanEntry} {upd : List UpdateEntry} {rf : ℚ},
      walk r items = .ok (plan, upd, rf) →
      plan.length = items.length ∧ upd.length = items.length ∧
        List.Forall₂ WalkRel items (plan.zip upd) := by
  intro items
  induction items with
  | nil =>
    intro r plan upd rf h
    simp only [walk] at h
    cases h
    exact ⟨rfl, rfl, List.Forall₂.nil⟩
  | cons item rest ih =>
    intro r plan upd rf h
    simp only [walk] at h
    by_cases hp : item.etf.current_price = 0
    · rw [if_pos hp] at h; cases h
    · rw [if_neg hp] at h
      cases hw : walk (r - |((qtyToTrade (tradeValue r item.value_difference)
          item.etf.current_price : ℤ) : ℚ) * item.etf.current_price|) rest with
      | error e => rw [hw] at h; cases h
      | ok t =>
        obtain ⟨ps, us, rf'⟩ := t
        rw [hw] at h
        cases h
        obtain ⟨h1, h2, h3⟩ := ih hw
        refine ⟨by simp [h1], by simp [h2], ?_⟩
        exact List.Forall₂.cons ⟨_, rfl, rfl⟩ h3

theorem remainAfter_zero (d : ℚ) (plan : List PlanEntry) : remainAfter d plan 0 = d := by
  simp [remainAfter]

theorem remainAfter_cons (d : ℚ) (e : PlanEntry) (ps : List PlanEntry) (k : ℕ) :
    remainAfter d (e :: ps) (k + 1) =
      remainAfter (d - |(e.qty_to_trade : ℚ) * e.current_price|) ps k := by
  simp [remainAfter, List.take_succ_cons]
  ring

/-- Each step subtracts a nonnegative amount, so the reconstructed
remaining cash never increases. -/
theorem remainAfter_succ_le (d : ℚ) (plan : List PlanEntry) (k : ℕ) :
    remainAfter d plan (k + 1) ≤ remainAfter d plan k := by
  unfold remainAfter
  rw [List.take_succ, List.map_append, List.sum_append]
  have h0 : 0 ≤ ((plan[k]?.toList).map (fun e => |(e.qty_to_trade : ℚ) * e.current_price|)).sum := by
    cases hk : plan[k]? with
    | none => simp
    | some e => simp [abs_nonneg]
  linarith

/-- Invariant of the greedy walk: starting from a nonnegative deposit, the
remaining cash stays nonnegative at every step. -/
theorem walk_remainAfter :
    ∀ {items : List EtfVal} {r : ℚ} {plan : List PlanEntry} {upd : List UpdateEntry} {rf : ℚ},
      walk r items = .ok (plan, upd, rf) → 0 ≤ r → ∀ k, 0 ≤ remainAfter r plan k := by
  intro items
  induction items with
  | nil =>
    intro r plan upd rf h hr k
    simp only [walk] at h
    cases h
    simp [remainAfter, hr]
  | cons item rest ih =>
    intro r plan upd rf h hr k
    simp only [walk] at h
    by_cases hp : item.etf.current_price = 0
    · rw [if_pos hp] at h; cases h
    · rw [if_neg hp] at h
      cases hw : walk (r - |((qtyToTrade (tradeValue r item.value_difference)
          item.etf.current_price : ℤ) : ℚ) * item.etf.current_price|) rest with
      | error e => rw [hw] at h; cases h
      | ok t =>
        obtain ⟨ps, us, rf'⟩ := t
        rw [hw] at h
        cases h
        have hstep : |((qtyToTrade (tradeValue r item.value_difference)
            item.etf.current_price : ℤ) : ℚ) * item.etf.current_price| ≤ r := by
          calc |((qtyToTrade (tradeValue r item.value_difference)
                item.etf.current_price : ℤ) : ℚ) * item.etf.current_price|
              ≤ |tradeValue r item.value_difference| := abs_qty_mul_le hp _
            _ ≤ r := abs_tradeValue_le hr _
        have hr' : 0 ≤ r - |((qtyToTrade (tradeValue r item.value_difference)
            item.etf.current_price : ℤ) : ℚ) * item.etf.current_price| := by linarith
        cases k with
        | zero => simpa [remainAfter_zero] using hr
        | succ k =>
          rw [remainAfter_cons]
          simpa [planEntryOf] using ih hw hr' k

/-- With a zero deposit every walked row trades zero units and is marked
유지 (HOLD), and the remaining deposit stays zero. -/
theorem walk_zero_qty :
    ∀ {items : List EtfVal} {plan : List PlanEntry} {upd : List UpdateEntry} {rf : ℚ},
      walk 0 items = .ok (plan, upd, rf) →
      ∀ e ∈ plan, e.qty_to_trade = 0 ∧ e.trade_type = "유지" := by
  intro items
  induction items with
  | nil =>
    intro plan upd rf h
    simp only [walk] at h
    cases h
    intro e he
    cases he
  | cons item rest ih =>
    intro plan upd rf h
    simp only [walk] at h
    by_cases hp : item.etf.current_price = 0
    · rw [if_pos hp] at h; cases h
    · rw [if_neg hp] at h
      have hq : qtyToTrade (tradeValue 0 item.value_difference) item.etf.current_price = 0 := by
        rw [tradeValue_zero]
        simp [qtyToTrade, pytrunc_zero, zero_div]
      rw [hq] at h
      have hz : (0 : ℚ) - |((0 : ℤ) : ℚ) * item.etf.current_price| = 0 := by simp
      rw [hz] at h
      cases hw : walk 0 rest with
      | error e => rw [hw] at h; cases h
      | ok t =>
        obtain ⟨ps, us, rf'⟩ := t
        rw [hw] at h
        cases h
        intro e he
        cases he with
        | head => exact ⟨rfl, by simp [planEntryOf]⟩
        | tail _ hmem => exact ih hw e hmem

/-- If any walked item has a zero price, the walk raises division by zero
at that item's trade-quantity computation (line 283). -/
theorem walk_error_of_zero_price :
    ∀ {items : List EtfVal}, (∃ it ∈ items, it.etf.current_price = 0) →
      ∀ r : ℚ, walk r items = .error .divByZero := by
  intro items
  induction items with
  | nil => rintro ⟨it, hmem, _⟩; cases hmem
  | cons item rest ih =>
    rintro ⟨it, hmem, hz⟩ r
    by_cases hp : item.etf.current_price = 0
    · simp [walk, hp]
    · cases hmem with
      | head => exact absurd hz hp
      | tail _ hmem =>
        simp only [walk, if_neg hp]
        rw [ih ⟨it, hmem, hz⟩ _]

/-- Inversion of a successful rebalancing run: the returned value is the
pre-trade portfolio value, and the plan/update lists come from walking the
stable-sorted per-holding values with the deposit as the initial budget. -/
theorem calc_ok_inv {etfs : List Holding} {d v : ℚ} {plan : List PlanEntry}
    {upd : List UpdateEntry}
    (h : calculate_rebalancing etfs d = .ok (plan, v, upd)) :
    v = totalPV etfs ∧
      computeEtfValues (totalPV etfs + d) etfs = .ok (etfValuesPure (totalPV etfs + d) etfs) ∧
      ∃ rf, walk d (sortVals (etfValuesPure (totalPV etfs + d) etfs)) = .ok (plan, upd, rf) := by
  simp only [calculate_rebalancing] at h
  cases hc : computeEtfValues (totalPV etfs + d) etfs with
  | error e => rw [hc] at h; cases h
  | ok vals =>
    rw [hc] at h
    have hvals : vals = etfValuesPure (totalPV etfs + d) etfs := computeEtfValues_ok hc
    subst hvals
    dsimp only at h
    cases hw : walk d (sortVals (etfValuesPure (totalPV etfs + d) etfs)) with
    | error e => rw [hw] at h; cases h
    | ok t =>
      obtain ⟨p, u, rf⟩ := t
      rw [hw] at h
      dsimp only at h
      cases h
      exact ⟨rfl, rfl, rf, rfl⟩

/-- The descending comparison used by the sort is transitive. -/
theorem sortLE_trans (a b c : EtfVal) :
    decide (|b.value_difference| ≤ |a.value_difference|) = true →
    decide (|c.value_difference| ≤ |b.value_difference|) = true →
    decide (|c.value_difference| ≤ |a.value_difference|) = true := by
  simp only [decide_eq_true_eq]
  exact fun h1 h2 => le_trans h2 h1

/-- The descending comparison used by the sort is total. -/
theorem sortLE_total (a b : EtfVal) :
    (decide (|b.value_difference| ≤ |a.value_difference|) ||
      decide (|a.value_difference| ≤ |b.value_difference|)) = true := by
  simp only [Bool.or_eq_true, decide_eq_true_eq]
  exact le_total _ _

/-- The sorted list is a permutation of its input. -/
theorem sortVals_perm (l : List EtfVal) : (sortVals l).Perm l :=
  List.mergeSort_perm l _

/-- The sorted list is ordered by decreasing `|value_difference|`. -/
theorem sortVals_sorted (l : List EtfVal) :
    (sortVals l).Pairwise (fun a b => |b.value_difference| ≤ |a.value_difference|) := by
  have h := List.sorted_mergeSort sortLE_trans sortLE_total l
  exact h.imp (fun hab => of_decide_eq_true hab)

/-- Stability of the sort: a pair already in the descending order keeps its
relative position.  This is the stable-tie guarantee of Python's `sorted`. -/
theorem sortVals_stable {l : List EtfVal} {x y : EtfVal} (hsub : List.Sublist [x, y] l)
    (hle : |y.value_difference| ≤ |x.value_difference|) :
    List.Sublist [x, y] (sortVals l) := by
  apply List.sublist_mergeSort sortLE_trans sortLE_total _ hsub
  simp [hle]

/-- Every element of the pure value list is `etfValueOf` of some holding. -/
theorem mem_etfValuesPure {ti : ℚ} {item : EtfVal} {etfs : List Holding}
    (h : item ∈ etfValuesPure ti etfs) : ∃ e ∈ etfs, item = etfValueOf ti e := by
  obtain ⟨e, he, rfl⟩ := List.mem_map.mp h
  exact ⟨e, he, rfl⟩

/-- Pointwise version of `walk_ok_shape`: the `k`-th plan row and `k`-th
update row are generated from the `k`-th walked item, with a common trade
quantity. -/
theorem walk_get {items : List EtfVal} {r : ℚ} {plan : List PlanEntry}
    {upd : List UpdateEntry} {rf : ℚ} (h : walk r items = .ok (plan, upd, rf)) :
    plan.length = items.length ∧ upd.length = items.length ∧
      ∀ k (hk : k < items.length) (hkp : k < plan.length) (hku : k < upd.length),
        ∃ q : ℤ, plan.get ⟨k, hkp⟩ = planEntryOf (items.get ⟨k, hk⟩) q ∧
          upd.get ⟨k, hku⟩ = updateEntryOf (items.get ⟨k, hk⟩) q := by
  obtain ⟨h1, h2, h3⟩ := walk_ok_shape h
  rw [List.forall₂_iff_get] at h3
  obtain ⟨hlen, hget⟩ := h3
  refine ⟨h1, h2, fun k hk hkp hku => ?_⟩
  have hkz : k < (plan.zip upd).length := by rw [List.length_zip]; omega
  obtain ⟨q, hq1, hq2⟩ := hget k hk hkz
  refine ⟨q, ?_, ?_⟩
  · have := hq1
    rwa [List.get_zip] at this
  · have := hq2
    rwa [List.get_zip] at this

/-- Every plan row of a successful walk comes from some walked item. -/
theorem plan_mem_of_walk {items : List EtfVal} {r : ℚ} {plan : List PlanEntry}
    {upd : List UpdateEntry} {rf : ℚ} (h : walk r items = .ok (plan, upd, rf)) :
    ∀ p ∈ plan, ∃ item ∈ items, ∃ q : ℤ, p = planEntryOf item q := by
  obtain ⟨h1, h2, h3⟩ := walk_get h
  intro p hp
  obtain ⟨⟨k, hk⟩, rfl⟩ := List.mem_iff_get.mp hp
  have hki : k < items.length := by omega
  have hku : k < upd.length := by omega
  obtain ⟨q, hq1, hq2⟩ := h3 k hki hk hku
  exact ⟨items.get ⟨k, hki⟩, List.get_mem _ _ _, q, hq1⟩

/-- Upserting a row leaves exactly one row under its key, provided the
table respected the primary key (at most one row per key) beforehand. -/
theorem upsertRow_filter_eq {t : HistoryTable} {date : String} (v : ℚ)
    (hpk : (t.filter (fun r => r.1 = date)).length ≤ 1) :
    (upsertRow t date v).filter (fun r => r.1 = date) = [(date, v)] := by
  unfold upsertRow
  by_cases hany : (t.any fun r => r.1 = date) = true
  · rw [if_pos hany]
    rw [List.filter_map]
    have hcomp : ((fun (r : String × ℚ) => decide (r.1 = date)) ∘
        (fun r : String × ℚ => if r.1 = date then (r.1, v) else r)) =
        fun (r : String × ℚ) => decide (r.1 = date) := by
      funext r
      by_cases hr : r.1 = date
      · simp [hr]
      · simp [hr]
    rw [hcomp]
    obtain ⟨r, hrt, hrd⟩ := List.any_eq_true.mp hany
    have hrf : r ∈ t.filter (fun x => x.1 = date) := List.mem_filter.mpr ⟨hrt, hrd⟩
    have hlen1 : (t.filter (fun x => x.1 = date)).length = 1 := by
      refine le_antisymm hpk ?_
      cases hf : t.filter (fun x => x.1 = date) with
      | nil => rw [hf] at hrf; cases hrf
      | cons a l => simp
    obtain ⟨a, ha⟩ := List.length_eq_one.mp hlen1
    rw [ha]
    have haf : a ∈ t.filter (fun x => x.1 = date) := by rw [ha]; exact List.mem_singleton.mpr rfl
    have had : a.1 = date := by
      have := (List.mem_filter.mp haf).2
      exact of_decide_eq_true this
    simp [had]
  · rw [if_neg hany]
    rw [List.filter_append]
    have hnil : t.filter (fun r => r.1 = date) = [] := by
      rw [List.filter_eq_nil_iff]
      intro r hr hcontra
      exact hany (List.any_eq_true.mpr ⟨r, hr, hcontra⟩)
    rw [hnil]
    simp

/-- C8: `save_portfolio_history` is an upsert keyed by (sleeve, period):
a second call in the same sleeve and period overwrites the first, leaving
exactly one record for that period holding the latest value, and leaves
every other sleeve's table untouched. -/
theorem c8_ledger_upsert {db : Sleeve → HistoryTable} {sleeve : Sleeve} {date : String}
    (x1 x2 : ℚ)
    (hpk : ((db sleeve).filter (fun r => r.1 = date)).length ≤ 1) :
    ((save_portfolio_history (save_portfolio_history db sleeve date x1) sleeve date x2
        sleeve).filter (fun r => r.1 = date)) = [(date, x2)] ∧
    (∀ s, s ≠ sleeve →
      save_portfolio_history (save_portfolio_history db sleeve date x1) sleeve date x2 s = db s) := by
  constructor
  · have h1 : save_portfolio_history db sleeve date x1 sleeve = upsertRow (db sleeve) date x1 := by
      simp [save_portfolio_history]
    have hf1 : (upsertRow (db sleeve) date x1).filter (fun r => r.1 = date) = [(date, x1)] :=
      upsertRow_filter_eq x1 hpk
    have hpk2 : ((save_portfolio_history db sleeve date x1 sleeve).filter
        (fun r => r.1 = date)).length ≤ 1 := by
      rw [h1, hf1]
      simp
    have h2 : save_portfolio_history (save_portfolio_history db sleeve date x1) sleeve date x2
        sleeve = upsertRow (save_portfolio_history db sleeve date x1 sleeve) date x2 := by
      simp [save_portfolio_history]
    rw [h2]
    exact upsertRow_filter_eq x2 hpk2
  · intro s hs
    simp [save_portfolio_history, hs]

/-- C8 witness: starting from an empty ledger, recording 100 then 200 for
personal pension in period "2025-03" leaves exactly the record
("2025-03", 200) there, and the crypto table is untouched. -/
theorem c8_ledger_upsert_witness :
    ((save_portfolio_history
        (save_portfolio_history (fun _ => []) .personal_pension "2025-03" 100)
        .personal_pension "2025-03" 200 .personal_pension).filter
          (fun r => r.1 = "2025-03")) = [("2025-03", 200)] ∧
    save_portfolio_history
        (save_portfolio_history (fun _ => []) .personal_pension "2025-03" 100)
        .personal_pension "2025-03" 200 .cryptocurrency = [] := by
  have h := @c8_ledger_upsert (fun _ => []) Sleeve.personal_pension "2025-03" 100 200 (by simp)
  exact ⟨h.1, h.2 .cryptocurrency (by decide)⟩

/-- C7: the period bucket of a date with day-of-month ≤ 24 is that date's
own year-month label; with day ≥ 25 it is the next calendar month's label,
December wrapping to January of the following year. -/
theorem c7_period_bucket {year month day : ℕ} (hm1 : 1 ≤ month) (hm2 : month ≤ 12)
    (hd1 : 1 ≤ day) (hd2 : day ≤ 31) :
    (day ≤ 24 → get_month_format year month day = monthLabel year month) ∧
    (25 ≤ day →
      (month = 12 → get_month_format year month day = monthLabel (year + 1) 1) ∧
      (month < 12 → get_month_format year month day = monthLabel year (month + 1))) := by
  constructor
  · intro h
    have hn : ¬ 25 ≤ day := by omega
    simp [get_month_format, hn]
  · intro h
    constructor
    · intro hm
      subst hm
      simp [get_month_format, h]
    · intro hlt
      have hn : ¬ 12 < month + 1 := by omega
      simp [get_month_format, h, hn]

/-- C7 witness: concrete boundary dates.  2025-03-24 stays in bucket
"2025-03", 2025-03-25 rolls to "2025-04", and 2025-12-25 wraps to
"2026-01". -/
theorem c7_period_bucket_witness :
    get_month_format 2025 3 24 = monthLabel 2025 3 ∧
    get_month_format 2025 3 25 = monthLabel 2025 4 ∧
    get_month_format 2025 12 25 = monthLabel 2026 1 := by
  refine ⟨?_, ?_, ?_⟩
  · exact (@c7_period_bucket 2025 3 24 (by decide) (by decide) (by decide) (by decide)).1
      (by decide)
  · exact ((@c7_period_bucket 2025 3 25 (by decide) (by decide) (by decide) (by decide)).2
      (by decide)).2 (by decide)
  · exact ((@c7_period_bucket 2025 12 25 (by decide) (by decide) (by decide) (by decide)).2
      (by decide)).1 rfl

/-- C9: the money parser returns already-numeric input unchanged (ints and
floats pass through); a string is cleaned of thousands separators and the
currency glyph and parsed as int with a float fallback; unparsable text
and non-numeric, non-string values yield `none` (never a silent zero):
"1,234,000₩" parses to 1234000, "abc" fails, and the number 1500.5 passes
through unchanged. -/
theorem c9_money_conversion :
    (∀ n : ℤ, convert_to_number (.pyInt n) = some (.int n)) ∧
    (∀ q : ℚ, convert_to_number (.pyFloat q) = some (.float q)) ∧
    convert_to_number (.pyStr "1,234,000₩") = some (.int 1234000) ∧
    convert_to_number (.pyStr "abc") = none ∧
    convert_to_number (.pyFloat (1500.5 : ℚ)) = some (.float (1500.5 : ℚ)) ∧
    convert_to_number .pyOther = none := by
  refine ⟨fun n => rfl, fun q => rfl, ?_, ?_, rfl, rfl⟩
  · decide
  · decide

/-- C6: with zero new cash, every plan row trades zero units and is marked
유지 (HOLD), whatever the sign or size of the deficits — the trade value is
capped by the zero remaining deposit in both directions. -/
theorem c6_zero_cash_all_hold {etfs : List Holding} {v : ℚ} {plan : List PlanEntry}
    {upd : List UpdateEntry}
    (hp : ∀ e ∈ etfs, 0 < e.current_price)
    (h : calculate_rebalancing etfs 0 = .ok (plan, v, upd)) :
    ∀ e ∈ plan, e.qty_to_trade = 0 ∧ e.trade_type = "유지" := by
  obtain ⟨hv, hc, rf, hw⟩ := calc_ok_inv h
  exact walk_zero_qty hw

/-- C6 witness: the specification's own example — two holdings with equal
and opposite deficits of 150000 and zero cash — holds both positions. -/
theorem c6_zero_cash_all_hold_witness :
    (∀ e ∈ [demoP, demoQ], 0 < e.current_price) ∧
    calculate_rebalancing [demoP, demoQ] 0 = .ok (demoPlanPQ, 700000, demoUpdPQ) ∧
    ((demoPlanPQ.get ⟨0, by decide⟩).qty_to_trade = 0 ∧
      (demoPlanPQ.get ⟨0, by decide⟩).trade_type = "유지") := by
  have hp : ∀ e ∈ [demoP, demoQ], 0 < e.current_price := by
    intro e he
    rcases List.mem_cons.mp he with rfl | he
    · norm_num [demoP]
    rcases List.mem_cons.mp he with rfl | he
    · norm_num [demoQ]
    cases he
  have hcalc : calculate_rebalancing [demoP, demoQ] 0 = .ok (demoPlanPQ, 700000, demoUpdPQ) := by
    norm_num [calculate_rebalancing, computeEtfValues, etfValueOf, sortVals, walk, tradeValue,
      qtyToTrade, pytrunc, totalPV, planEntryOf, updateEntryOf, demoP, demoQ, demoPlanPQ,
      demoUpdPQ, List.mergeSort]
  exact ⟨hp, hcalc, @c6_zero_cash_all_hold [demoP, demoQ] 700000 demoPlanPQ demoUpdPQ hp hcalc
    (demoPlanPQ.get ⟨0, by decide⟩) (List.get_mem _ _ _)⟩

/-- C3: a successful run returns the pre-trade portfolio value
`Σ price·qty` (the deposit is not included in it), while every per-holding
quantity — `current_ratio`, `target_value`, `value_difference` — is
computed against the post-cash basis `total_investment = v + deposit`. -/
theorem c3_pre_trade_value_post_cash_basis {etfs : List Holding} {d v : ℚ}
    {plan : List PlanEntry} {upd : List UpdateEntry}
    (h : calculate_rebalancing etfs d = .ok (plan, v, upd)) :
    v = totalPV etfs ∧
    (∀ p ∈ plan, p.current_ratio = p.current_value / (v + d)) ∧
    (∀ val ∈ etfValuesPure (v + d) etfs,
      val.current_ratio = val.current_value / (v + d) ∧
      val.target_value = (v + d) * val.target_ratio ∧
      val.value_difference = val.target_value - val.current_value) := by
  obtain ⟨hv, hc, rf, hw⟩ := calc_ok_inv h
  subst hv
  refine ⟨rfl, ?_, ?_⟩
  · intro p hp
    obtain ⟨item, hitem, q, rfl⟩ := plan_mem_of_walk hw p hp
    have hmem : item ∈ etfValuesPure (totalPV etfs + d) etfs :=
      (sortVals_perm _).mem_iff.mp hitem
    obtain ⟨e, he, rfl⟩ := mem_etfValuesPure hmem
    simp [planEntryOf, etfValueOf]
  · intro val hval
    obtain ⟨e, he, rfl⟩ := mem_etfValuesPure hval
    simp [etfValueOf]

/-- C3 witness: one holding worth 1000 with deposit 1000 — the function
returns 1000 (cash excluded) while the plan's ratio divides by the basis
2000. -/
theorem c3_pre_trade_value_post_cash_basis_witness :
    calculate_rebalancing [demoH] 1000 = .ok (demoPlan, 1000, demoUpd) ∧
    (1000 : ℚ) = totalPV [demoH] ∧
    (demoPlan.get ⟨0, by decide⟩).current_ratio =
      (demoPlan.get ⟨0, by decide⟩).current_value / (1000 + 1000) := by
  have hcalc : calculate_rebalancing [demoH] 1000 = .ok (demoPlan, 1000, demoUpd) := by
    norm_num [calculate_rebalancing, computeEtfValues, etfValueOf, sortVals, walk, tradeValue,
      qtyToTrade, pytrunc, totalPV, planEntryOf, updateEntryOf, demoH, demoPlan, demoUpd]
  have h := @c3_pre_trade_value_post_cash_basis [demoH] 1000 1000 demoPlan demoUpd hcalc
  exact ⟨hcalc, h.1, h.2.1 (demoPlan.get ⟨0, by decide⟩) (List.get_mem _ _ _)⟩

/-- C2: with strictly positive prices and a nonnegative deposit, the
remaining cash of the greedy walk starts at the deposit, falls by
`|qty_to_trade · price|` at each processed row, never increases, and never
becomes negative. -/
theorem c2_remaining_cash_invariant {etfs : List Holding} {d v : ℚ}
    {plan : List PlanEntry} {upd : List UpdateEntry}
    (hp : ∀ e ∈ etfs, 0 < e.current_price) (hd : 0 ≤ d)
    (h : calculate_rebalancing etfs d = .ok (plan, v, upd)) :
    remainAfter d plan 0 = d ∧
    (∀ k, remainAfter d plan (k + 1) ≤ remainAfter d plan k) ∧
    (∀ k, 0 ≤ remainAfter d plan k) := by
  obtain ⟨hv, hc, rf, hw⟩ := calc_ok_inv h
  exact ⟨remainAfter_zero d plan, fun k => remainAfter_succ_le d plan k,
    walk_remainAfter hw hd⟩

/-- C2 witness: one holding, deposit 1000, which the walk spends fully:
the remaining cash goes 1000 → 0 and stays nonnegative. -/
theorem c2_remaining_cash_invariant_witness :
    (∀ e ∈ [demoH], 0 < e.current_price) ∧ (0 : ℚ) ≤ 1000 ∧
    calculate_rebalancing [demoH] 1000 = .ok (demoPlan, 1000, demoUpd) ∧
    remainAfter 1000 demoPlan 0 = 1000 ∧
    remainAfter 1000 demoPlan 1 ≤ remainAfter 1000 demoPlan 0 ∧
    0 ≤ remainAfter 1000 demoPlan 1 := by
  have hp : ∀ e ∈ [demoH], 0 < e.current_price := by
    intro e he
    rcases List.mem_cons.mp he with rfl | he
    · norm_num [demoH]
    cases he
  have hd : (0 : ℚ) ≤ 1000 := by norm_num
  have hcalc : calculate_rebalancing [demoH] 1000 = .ok (demoPlan, 1000, demoUpd) := by
    norm_num [calculate_rebalancing, computeEtfValues, etfValueOf, sortVals, walk, tradeValue,
      qtyToTrade, pytrunc, totalPV, planEntryOf, updateEntryOf, demoH, demoPlan, demoUpd]
  have h := @c2_remaining_cash_invariant [demoH] 1000 1000 demoPlan demoUpd hp hd hcalc
  exact ⟨hp, hd, hcalc, h.1, h.2.1 0, h.2.2 1⟩

/-- C4 counterexample: with no holdings and zero new cash the total
investable basis is zero, yet `calculate_rebalancing` does not fail with
any error, let alone an `InvalidInputError` (no such error exists in the
code): it returns successfully with an empty plan. -/
theorem c4_counterexample :
    totalPV [] + (0 : ℚ) = 0 ∧ calculate_rebalancing [] 0 = .ok ([], 0, []) := by
  constructor
  · simp [totalPV]
  · simp [calculate_rebalancing, computeEtfValues, sortVals, walk, totalPV]

/-- C4 (amended): the code defines no `InvalidInputError`.  A zero total
investable basis aborts the run with an unhandled division-by-zero error
only when there is at least one holding (the error is raised at the ratio
computation); a holding priced at zero aborts the run (at its
trade-quantity computation) with the same division-by-zero error when the
basis is nonzero.  Empty holdings with zero cash, and negative prices, do
not fail at all — see the counterexample. -/
theorem c4_divide_by_zero_amended {etfs : List Holding} {d : ℚ} :
    (etfs ≠ [] → totalPV etfs + d = 0 → calculate_rebalancing etfs d = .error .divByZero) ∧
    (totalPV etfs + d ≠ 0 → (∃ e ∈ etfs, e.current_price = 0) →
      calculate_rebalancing etfs d = .error .divByZero) := by
  constructor
  · intro hne hz
    cases etfs with
    | nil => exact absurd rfl hne
    | cons etf rest =>
      simp only [calculate_rebalancing]
      rw [hz, computeEtfValues_zero]
  · intro hnz hex
    obtain ⟨e, he, hz⟩ := hex
    simp only [calculate_rebalancing]
    rw [computeEtfValues_of_ne_zero hnz]
    have hw : walk d (sortVals (etfValuesPure (totalPV etfs + d) etfs)) = .error .divByZero := by
      apply walk_error_of_zero_price
      refine ⟨etfValueOf (totalPV etfs + d) e, ?_, ?_⟩
      · exact (sortVals_perm _).mem_iff.mpr (List.mem_map_of_mem _ he)
      · simp only [etfValueOf]
        exact hz
    dsimp only
    rw [hw]

/-- C4 amended witness: a holding with zero quantity and zero cash (zero
basis) raises division by zero, as does a zero-priced holding with
nonzero cash. -/
theorem c4_divide_by_zero_amended_witness :
    calculate_rebalancing [demoZeroQty] 0 = .error .divByZero ∧
    calculate_rebalancing [demoZeroPrice] 5 = .error .divByZero := by
  constructor
  · exact (@c4_divide_by_zero_amended [demoZeroQty] 0).1 (by simp)
      (by norm_num [totalPV, demoZeroQty])
  · exact (@c4_divide_by_zero_amended [demoZeroPrice] 5).2
      (by norm_num [totalPV, demoZeroPrice])
      ⟨demoZeroPrice, by simp, rfl⟩

/-- C5 (bug evidence): for the dashboard's own Bitcoin seed holding with
fractional quantity 1/10, the plan entry's `current_value` is
`int(price) * int(qty) = 60000000 * 0 = 0` (line 260 truncates the
quantity), although `price × qty = 6000000` — which is exactly the value
the same run returns as the portfolio total (line 255/310 use the full
fractional quantity).  The fractional quantity is thus lost in the
per-holding computation. -/
theorem c5_fractional_quantity_truncated :
    btcHolding.current_price * btcHolding.current_qty = 6000000 ∧
    calculate_rebalancing [btcHolding] 1000000 =
      .ok ([⟨"Bitcoin", 60000000, 1/10, 0, 0, 1/2, 0, "유지"⟩], 6000000,
        [⟨"Bitcoin", "BTC", 60000000, 1/10, 0, 0, 1/2⟩]) := by
  constructor
  · norm_num [btcHolding]
  · norm_num [calculate_rebalancing, computeEtfValues, etfValueOf, sortVals, walk, tradeValue,
      qtyToTrade, pytrunc, totalPV, planEntryOf, updateEntryOf, btcHolding]

/-- C10: every row of the returned updated-holdings list keeps some input
holding's name, code, price and target ratio unchanged and advances its
quantity by exactly that row's trade quantity; the list has one row per
input holding. -/
theorem c10_update_frame {etfs : List Holding} {d v : ℚ} {plan : List PlanEntry}
    {upd : List UpdateEntry}
    (h : calculate_rebalancing etfs d = .ok (plan, v, upd)) :
    upd.length = etfs.length ∧ plan.length = upd.length ∧
    ∀ k (hkp : k < plan.length) (hku : k < upd.length),
      ∃ e ∈ etfs,
        (upd.get ⟨k, hku⟩).name = e.name ∧
        (upd.get ⟨k, hku⟩).code = e.code ∧
        (upd.get ⟨k, hku⟩).current_price = e.current_price ∧
        (upd.get ⟨k, hku⟩).target_ratio = e.target_ratio ∧
        (upd.get ⟨k, hku⟩).current_qty =
          e.current_qty + ((plan.get ⟨k, hkp⟩).qty_to_trade : ℚ) := by
  obtain ⟨hv, hc, rf, hw⟩ := calc_ok_inv h
  obtain ⟨hlp, hlu, hget⟩ := walk_get hw
  have hlen : (sortVals (etfValuesPure (totalPV etfs + d) etfs)).length = etfs.length := by
    rw [(sortVals_perm _).length_eq]
    simp [etfValuesPure]
  refine ⟨by rw [hlu, hlen], by rw [hlp, hlu], ?_⟩
  intro k hkp hku
  have hki : k < (sortVals (etfValuesPure (totalPV etfs + d) etfs)).length := by
    rw [← hlp]; exact hkp
  obtain ⟨q, hq1, hq2⟩ := hget k hki hkp hku
  have hmem : (sortVals (etfValuesPure (totalPV etfs + d) etfs)).get ⟨k, hki⟩
      ∈ etfValuesPure (totalPV etfs + d) etfs :=
    (sortVals_perm _).mem_iff.mp (List.get_mem _ _ _)
  obtain ⟨e, he, heq⟩ := mem_etfValuesPure hmem
  rw [heq] at hq1 hq2
  refine ⟨e, he, ?_, ?_, ?_, ?_, ?_⟩
  · rw [hq2]; simp [updateEntryOf, etfValueOf]
  · rw [hq2]; simp [updateEntryOf, etfValueOf]
  · rw [hq2]; simp [updateEntryOf, etfValueOf]
  · rw [hq2]; simp [updateEntryOf, etfValueOf]
  · rw [hq2, hq1]; simp [updateEntryOf, planEntryOf, etfValueOf]

/-- C10 witness: the single demonstration holding, whose update row keeps
name/code/price/target and advances the quantity 10 by the traded 10. -/
theorem c10_update_frame_witness :
    calculate_rebalancing [demoH] 1000 = .ok (demoPlan, 1000, demoUpd) ∧
    ((demoUpd.get ⟨0, by decide⟩).name = demoH.name ∧
     (demoUpd.get ⟨0, by decide⟩).code = demoH.code ∧
     (demoUpd.get ⟨0, by decide⟩).current_price = demoH.current_price ∧
     (demoUpd.get ⟨0, by decide⟩).target_ratio = demoH.target_ratio ∧
     (demoUpd.get ⟨0, by decide⟩).current_qty =
       demoH.current_qty + ((demoPlan.get ⟨0, by decide⟩).qty_to_trade : ℚ)) := by
  have hcalc : calculate_rebalancing [demoH] 1000 = .ok (demoPlan, 1000, demoUpd) := by
    norm_num [calculate_rebalancing, computeEtfValues, etfValueOf, sortVals, walk, tradeValue,
      qtyToTrade, pytrunc, totalPV, planEntryOf, updateEntryOf, demoH, demoPlan, demoUpd]
  obtain ⟨h1, h2, h3⟩ := @c10_update_frame [demoH] 1000 1000 demoPlan demoUpd hcalc
  obtain ⟨e, he, hname, hcode, hprice, htr, hqty⟩ := h3 0 (by decide) (by decide)
  have hed : e = demoH := List.mem_singleton.mp he
  subst hed
  exact ⟨hcalc, hname, hcode, hprice, htr, hqty⟩

/-- C1: a successful run emits exactly one plan row per input holding
(same length, and the row names are a permutation of the holding names),
processes rows in order of non-increasing `|deficit|` — so a strictly
larger `|deficit|` is processed strictly earlier — and the underlying
sort is stable: a pair of per-holding values in input order with equal
`|deficit|` keeps that order in the processed sequence. -/
theorem c1_greedy_order {etfs : List Holding} {d v : ℚ} {plan : List PlanEntry}
    {upd : List UpdateEntry}
    (h : calculate_rebalancing etfs d = .ok (plan, v, upd)) :
    plan.length = etfs.length ∧
    (plan.map PlanEntry.name).Perm (etfs.map Holding.name) ∧
    (∀ (i j : ℕ) (hi : i < plan.length) (hj : j < plan.length), i < j →
      |planDeficit (v + d) (plan.get ⟨j, hj⟩)| ≤ |planDeficit (v + d) (plan.get ⟨i, hi⟩)|) ∧
    (∀ x y : EtfVal, List.Sublist [x, y] (etfValuesPure (v + d) etfs) →
      |x.value_difference| = |y.value_difference| →
      List.Sublist [x, y] (sortVals (etfValuesPure (v + d) etfs))) := by
  obtain ⟨hv, hc, rf, hw⟩ := calc_ok_inv h
  subst hv
  obtain ⟨hlp, hlu, hget⟩ := walk_get hw
  have hlen : (sortVals (etfValuesPure (totalPV etfs + d) etfs)).length = etfs.length := by
    rw [(sortVals_perm _).length_eq]
    simp [etfValuesPure]
  have hdef : ∀ (k : ℕ) (hk : k < plan.length) (hki : k <
      (sortVals (etfValuesPure (totalPV etfs + d) etfs)).length),
      planDeficit (totalPV etfs + d) (plan.get ⟨k, hk⟩) =
        ((sortVals (etfValuesPure (totalPV etfs + d) etfs)).get ⟨k, hki⟩).value_difference := by
    intro k hk hki
    have hku : k < upd.length := by rw [hlu, ← hlp]; exact hk
    obtain ⟨q, hq1, hq2⟩ := hget k hki hk hku
    have hmem : (sortVals (etfValuesPure (totalPV etfs + d) etfs)).get ⟨k, hki⟩
        ∈ etfValuesPure (totalPV etfs + d) etfs :=
      (sortVals_perm _).mem_iff.mp (List.get_mem _ _ _)
    obtain ⟨e, he, heq⟩ := mem_etfValuesPure hmem
    rw [hq1, heq]
    simp [planDeficit, planEntryOf, etfValueOf]
  refine ⟨by rw [hlp, hlen], ?_, ?_, ?_⟩
  · have hmap : plan.map PlanEntry.name =
        (sortVals (etfValuesPure (totalPV etfs + d) etfs)).map (fun it => it.etf.name) := by
      apply List.ext_get
      · simp [hlp]
      · intro n h1 h2
        simp only [List.length_map] at h1 h2
        have hku : n < upd.length := by rw [hlu, ← hlp]; exact h1
        obtain ⟨q, hq1, hq2⟩ := hget n h2 h1 hku
        simp only [List.get_map]
        rw [hq1]
        rfl
    rw [hmap]
    refine ((sortVals_perm _).map _).trans ?_
    have hpure : (etfValuesPure (totalPV etfs + d) etfs).map (fun it => it.etf.name) =
        etfs.map Holding.name := by
      simp [etfValuesPure, List.map_map, Function.comp, etfValueOf]
    rw [hpure]
  · intro i j hi hj hij
    have hki : i < (sortVals (etfValuesPure (totalPV etfs + d) etfs)).length := by
      rw [← hlp]; exact hi
    have hkj : j < (sortVals (etfValuesPure (totalPV etfs + d) etfs)).length := by
      rw [← hlp]; exact hj
    rw [hdef i hi hki, hdef j hj hkj]
    have hs := sortVals_sorted (etfValuesPure (totalPV etfs + d) etfs)
    rw [List.pairwise_iff_get] at hs
    exact hs ⟨i, hki⟩ ⟨j, hkj⟩ hij
  · intro x y hsub heq
    exact sortVals_stable hsub (le_of_eq heq.symm)

/-- C1 witness: the specification's tied two-holding example — one row per
holding, names in order, and the deficit magnitudes (both 150000) are
non-increasing along the plan. -/
theorem c1_greedy_order_witness :
    calculate_rebalancing [demoP, demoQ] 0 = .ok (demoPlanPQ, 700000, demoUpdPQ) ∧
    demoPlanPQ.length = 2 ∧
    (demoPlanPQ.map PlanEntry.name).Perm ([demoP, demoQ].map Holding.name) ∧
    |planDeficit (700000 + 0) (demoPlanPQ.get ⟨1, by decide⟩)| ≤
      |planDeficit (700000 + 0) (demoPlanPQ.get ⟨0, by decide⟩)| := by
  have hcalc : calculate_rebalancing [demoP, demoQ] 0 = .ok (demoPlanPQ, 700000, demoUpdPQ) := by
    norm_num [calculate_rebalancing, computeEtfValues, etfValueOf, sortVals, walk, tradeValue,
      qtyToTrade, pytrunc, totalPV, planEntryOf, updateEntryOf, demoP, demoQ, demoPlanPQ,
      demoUpdPQ, List.mergeSort]
  obtain ⟨h1, h2, h3, h4⟩ := @c1_greedy_order [demoP, demoQ] 0 700000 demoPlanPQ demoUpdPQ hcalc
  exact ⟨hcalc, h1.trans rfl, h2, h3 0 1 (by decide) (by decide) (by decide)⟩
